import Mathlib

/-!
Shallow embedding of the metadata-signing and key-management subsystem of
`workspaces/tuftool/src/key.rs` (functions `KeyPair::parse`, `KeyPair::sign`,
`KeyPair::public_key`, `PartialEq<Key> for KeyPair`, `keys_for_root`,
`sign_metadata`), together with a model of the canonical JSON serializer
used immediately before signing.

External collaborators (the `ring` crypto primitives, the `pem` container
parser, the `tough_schema` trust-document types, the key-source resolution)
are modelled abstractly: an `RsaKeyPair` carries its public bytes, its
modulus length, and an abstract in-buffer signing operation whose output
length equals the buffer length (a mutable Rust slice cannot change length);
a `KeySource` is modelled by the outcome of resolving it.
-/

namespace Tuftool

/-- Key identifiers are decoded hex byte strings (`Decoded<Hex>`); modelled as
byte lists. -/
abbrev KeyId : Type := List Nat

/-- Randomness source handed to `ring`; its internal state is irrelevant to the
claims, so it is modelled as a seed value. -/
abbrev Rng : Type := Nat

/-- Error taxonomy of `tuftool::error` restricted to the variants reachable
from `key.rs`: `KeyUnrecognized`, `KeyRejected`, `Sign`, `SignJson`, plus a
key-source read failure produced by `KeySource::as_keypair`. -/
inductive Error : Type
  | keyUnrecognized
  | keyRejected
  | sign
  | signJson
  | sourceRead (which : Nat)
  deriving DecidableEq, Repr

/-- Result of a successful `pem::parse`: a tag and the contained bytes. -/
structure Pem where
  tag : String
  contents : List Nat

/-- Model of `ring::signature::RsaKeyPair`: the ring-held public key bytes
(`public_key().as_ref()`), the private material (held but never compared),
the public modulus length, and the raw signing operation that fills a caller
supplied buffer. `sign_length` records the Rust slice contract: the bytes
written back have exactly the buffer's length. -/
structure RsaKeyPair where
  privateKey : List Nat
  publicKey : List Nat
  publicModulusLen : Nat
  signRaw : List Nat → List Nat → Rng → Except Unit (List Nat)
  sign_length : ∀ buf msg rng out, signRaw buf msg rng = Except.ok out →
    out.length = buf.length

/-- the closed algorithm dispatch of `key.rs`: `enum KeyPair { Rsa(RsaKeyPair) }`. -/
inductive KeyPair : Type
  | rsa (kp : RsaKeyPair)

/-- RSA signature scheme tags of `tough_schema::key` (the closed set of the
spec is exactly RSASSA-PSS-SHA256). -/
inductive RsaScheme : Type
  | rsassaPssSha256
  deriving DecidableEq, Repr

/-- Encoded RSA public key wrapper (`tough_schema::key::RsaKey`). -/
structure RsaKeyval where
  public : List Nat
  deriving DecidableEq, Repr

/-- Trusted key descriptor (`tough_schema::key::Key`): algorithm tag plus
encoded public material. The ed25519 variant exists in the schema (it is what
the `_ => false` arm of the `PartialEq` impl matches) but is never produced by
this subsystem. -/
inductive Key : Type
  | rsa (keyval : RsaKeyval) (scheme : RsaScheme)
  | ed25519 (public : List Nat)
  deriving DecidableEq, Repr

/-- Abstract behaviour of the external parsing primitives consumed by
`KeyPair::parse`: the `pem` container parser and `ring`'s
`RsaKeyPair::from_der`. -/
structure CryptoEnv where
  pemParse : List Nat → Option Pem
  rsaFromDer : List Nat → Except Unit RsaKeyPair

/-- embedding of `KeyPair::parse` (key.rs lines 18-29): parse the PEM
container, dispatch on its tag, decode an RSA key for the recognized tag. -/
def KeyPair.parse (env : CryptoEnv) (key : List Nat) : Except Error KeyPair :=
  match env.pemParse key with
  | some pem =>
    if pem.tag = "RSA PRIVATE KEY" then
      match env.rsaFromDer pem.contents with
      | Except.ok kp => Except.ok (KeyPair.rsa kp)
      | Except.error _ => Except.error Error.keyRejected
    else Except.error Error.keyUnrecognized
  | none => Except.error Error.keyUnrecognized

/-- embedding of `KeyPair::sign` (key.rs lines 31-41): allocate a zero buffer
of the public modulus length, let ring fill it, wrap any failure as `Sign`. -/
def KeyPair.sign : KeyPair → List Nat → Rng → Except Error (List Nat)
  | KeyPair.rsa kp, msg, rng =>
    match kp.signRaw (List.replicate kp.publicModulusLen 0) msg rng with
    | Except.ok s => Except.ok s
    | Except.error _ => Except.error Error.sign

/-- embedding of `KeyPair::public_key` (key.rs lines 43-55). -/
def KeyPair.public_key : KeyPair → Key
  | KeyPair.rsa kp => Key.rsa ⟨kp.publicKey⟩ RsaScheme.rsassaPssSha256

/-- embedding of `impl PartialEq<Key> for KeyPair` (key.rs lines 57-66):
compare the ring public key bytes with the descriptor's public bytes; any
algorithm mismatch is `false`. -/
def keyPairEqKey : KeyPair → Key → Bool
  | KeyPair.rsa kp, Key.rsa keyval _ => decide (kp.publicKey = keyval.public)
  | _, _ => false

/-- Key source, modelled by the outcome of `KeySource::as_keypair`: resolving
a locator yields exactly one key pair or fails with a read/parse error. -/
structure KeySource where
  asKeypair : Except Error KeyPair

/-- Role table entry of the root document (`tough_schema::RoleKeys`):
authorized key ids plus the signing threshold. -/
structure RoleKeys where
  keyids : List KeyId
  threshold : Nat

/-- Role names (`tough_schema::RoleType`). -/
inductive RoleType : Type
  | root
  | targets
  | snapshot
  | timestamp
  deriving DecidableEq, Repr

/-- Root of trust (`tough_schema::Root`): the key dictionary, modelled as an
association list in iteration order, and the role table. -/
structure Root where
  keys : List (KeyId × Key)
  roles : RoleType → Option RoleKeys

/-- insert-or-replace on an association list: the model of
`HashMap::insert` (replaces the value of an existing key, appends a new key). -/
def mapInsert : List (KeyId × KeyPair) → KeyId → KeyPair → List (KeyId × KeyPair)
  | [], k, v => [(k, v)]
  | (k', v') :: rest, k, v =>
    if k' = k then (k, v) :: rest else (k', v') :: mapInsert rest k v

/-- association-list lookup, the model of `HashMap::get`. -/
def mapLookup : List (KeyId × KeyPair) → KeyId → Option KeyPair
  | [], _ => none
  | (k', v') :: rest, k => if k' = k then some v' else mapLookup rest k

/-- loop body of `keys_for_root` with the accumulated map made explicit. -/
def keysForRootGo (root : Root) : List KeySource → List (KeyId × KeyPair) →
    Except Error (List (KeyId × KeyPair))
  | [], m => Except.ok m
  | s :: rest, m =>
    match s.asKeypair with
    | Except.error e => Except.error e
    | Except.ok kp =>
      match root.keys.find? (fun p => keyPairEqKey kp p.2) with
      | some p => keysForRootGo root rest (mapInsert m p.1 kp)
      | none => keysForRootGo root rest m

/-- embedding of `keys_for_root` (key.rs lines 70-79): resolve each source,
keep those whose pair matches a descriptor in the root's key dictionary,
indexed by that entry's key id. -/
def keys_for_root (keys : List KeySource) (root : Root) :
    Except Error (List (KeyId × KeyPair)) :=
  keysForRootGo root keys []

/-- Signature entry (`tough_schema::Signature`). -/
structure Signature where
  keyid : KeyId
  sig : List Nat
  deriving DecidableEq

/-- Signed envelope (`tough_schema::Signed<T>`). -/
structure Signed (T : Type) where
  signed : T
  signatures : List Signature

/-- loop body of `sign_metadata` over the resolved key map, with the document
threaded explicitly; returns the mutated document together with the
`Result`, so a failure exposes the partially accumulated signatures. -/
def signMetadataGo {T : Type} (ser : T → Except Unit (List Nat)) (rk : RoleKeys)
    (rng : Rng) : List (KeyId × KeyPair) → Signed T → Signed T × Except Error Unit
  | [], doc => (doc, Except.ok ())
  | (keyid, key) :: rest, doc =>
    if keyid ∈ rk.keyids then
      match ser doc.signed with
      | Except.error _ => (doc, Except.error Error.signJson)
      | Except.ok data =>
        match key.sign data rng with
        | Except.error e => (doc, Except.error e)
        | Except.ok s =>
          signMetadataGo ser rk rng rest
            ⟨doc.signed, doc.signatures ++ [⟨keyid, s⟩]⟩
    else signMetadataGo ser rk rng rest doc

/-- embedding of `sign_metadata` (key.rs lines 81-107): `tType` is the
document's declared role (`T::TYPE`) and `ser` the canonical serialization of
the payload (constant in the loop because the payload is never mutated). -/
def sign_metadata {T : Type} (tType : RoleType) (ser : T → Except Unit (List Nat))
    (root : Root) (keys : List (KeyId × KeyPair)) (role : Signed T) (rng : Rng) :
    Signed T × Except Error Unit :=
  match root.roles tType with
  | some rk => signMetadataGo ser rk rng keys role
  | none => (role, Except.ok ())

/-- Algorithm tags, used to state the comparison claim. -/
inductive Alg : Type
  | rsa
  | ed25519
  deriving DecidableEq, Repr

/-- Algorithm tag of an operational key pair. -/
def KeyPair.alg : KeyPair → Alg
  | KeyPair.rsa _ => Alg.rsa

/-- Public bytes held by an operational key pair. -/
def KeyPair.publicBytes : KeyPair → List Nat
  | KeyPair.rsa kp => kp.publicKey

/-- Algorithm tag of a trusted key descriptor. -/
def Key.alg : Key → Alg
  | Key.rsa _ _ => Alg.rsa
  | Key.ed25519 _ => Alg.ed25519

/-- Public bytes of a trusted key descriptor. -/
def Key.publicBytes : Key → List Nat
  | Key.rsa keyval _ => keyval.public
  | Key.ed25519 b => b

/-- Signatures appended by a fully successful `sign_metadata` pass: one entry
per map entry whose key id is authorized for the role. -/
def appendedSigs (rk : RoleKeys) (keys : List (KeyId × KeyPair)) (data : List Nat)
    (rng : Rng) : List Signature :=
  keys.filterMap fun p =>
    if p.1 ∈ rk.keyids then
      match p.2.sign data rng with
      | Except.ok s => some ⟨p.1, s⟩
      | Except.error _ => none
    else none

/-- Modelled from the spec: JSON values as serialized by `sign_metadata`'s
canonical serializer (the `olpc_cjson` crate, an external collaborator not
present under the sources). Objects carry their members in insertion order;
arrays keep semantically significant order. -/
inductive Json : Type
  | null
  | bool (b : Bool)
  | num (n : Int)
  | str (s : String)
  | arr (xs : List Json)
  | obj (members : List (String × Json))

/-- Modelled from the spec: fixed minimal string escaping; its details are a
function of the string alone, so they do not affect order independence. -/
def quoteStr (s : String) : String :=
  "\"" ++ s ++ "\""

/-- Ordering of serialized object members by their keys. -/
def memberKeyLe (a b : String × String) : Prop :=
  a.1 ≤ b.1

instance : DecidableRel memberKeyLe :=
  fun a b => inferInstanceAs (Decidable (a.1 ≤ b.1))

instance : IsTotal (String × String) memberKeyLe :=
  ⟨fun a b => le_total a.1 b.1⟩

instance : IsTrans (String × String) memberKeyLe :=
  ⟨fun _ _ _ h1 h2 => le_trans h1 h2⟩

/-- Strict version of `memberKeyLe`, used to exploit key distinctness. -/
def memberKeyLt (a b : String × String) : Prop :=
  a.1 < b.1

instance : IsAntisymm (String × String) memberKeyLt :=
  ⟨fun _ _ h1 h2 => absurd h2 (not_lt.mpr (le_of_lt h1))⟩

/-- Modelled from the spec: object members are emitted in lexicographic key
order, not declaration or insertion order. -/
def sortMembers (l : List (String × String)) : List (String × String) :=
  List.insertionSort memberKeyLe l

mutual

/-- Modelled from the spec: the canonical serialization — no insignificant
whitespace, a single canonical numeric form, sorted object members. -/
def serJson : Json → String
  | Json.null => "null"
  | Json.bool true => "true"
  | Json.bool false => "false"
  | Json.num n => toString n
  | Json.str s => quoteStr s
  | Json.arr xs => "[" ++ String.intercalate "," (serList xs) ++ "]"
  | Json.obj ms =>
      "\x7b" ++ String.intercalate ","
        ((sortMembers (serMembers ms)).map fun p => quoteStr p.1 ++ ":" ++ p.2)
        ++ "\x7d"

/-- canonical serialization of an array's elements, in order. -/
def serList : List Json → List String
  | [] => []
  | x :: xs => serJson x :: serList xs

/-- canonical serialization of an object's members, still in insertion order;
sorting happens in `serJson`. -/
def serMembers : List (String × Json) → List (String × String)
  | [] => []
  | (k, v) :: ms => (k, serJson v) :: serMembers ms

end

/-- Concrete RSA key pair used to instantiate the claims: its raw signing
operation succeeds by echoing the buffer. -/
def wRsa : RsaKeyPair where
  privateKey := [9]
  publicKey := [1, 2]
  publicModulusLen := 2
  signRaw := fun buf _ _ => Except.ok buf
  sign_length := fun _ _ _ _ h => by injection h with h2; rw [← h2]

/-- Concrete RSA key pair whose raw signing operation always fails. -/
def wRsaFail : RsaKeyPair where
  privateKey := [9]
  publicKey := [5, 6]
  publicModulusLen := 2
  signRaw := fun _ _ _ => Except.error ()
  sign_length := fun _ _ _ _ h => by simp at h

/-- Concrete RSA key pair: same public bytes as `wRsa`, different private
material and signing behaviour. -/
def wRsaAlt : RsaKeyPair where
  privateKey := [42]
  publicKey := [1, 2]
  publicModulusLen := 3
  signRaw := fun _ _ _ => Except.error ()
  sign_length := fun _ _ _ _ h => by simp at h

/-- Concrete PEM container with the recognized tag. -/
def wPem : Pem := ⟨"RSA PRIVATE KEY", [1]⟩

/-- Concrete PEM container with an unsupported tag. -/
def wPemBad : Pem := ⟨"EC PRIVATE KEY", [1]⟩

/-- Environment in which the input is not a valid PEM container. -/
def envNone : CryptoEnv := ⟨fun _ => none, fun _ => Except.error ()⟩

/-- Environment in which the container has an unsupported tag. -/
def envBadTag : CryptoEnv := ⟨fun _ => some wPemBad, fun _ => Except.error ()⟩

/-- Environment in which the tag is recognized but the key bytes are invalid. -/
def envRejected : CryptoEnv := ⟨fun _ => some wPem, fun _ => Except.error ()⟩

/-- Environment in which parsing fully succeeds. -/
def envOk : CryptoEnv := ⟨fun _ => some wPem, fun _ => Except.ok wRsa⟩

/-- Concrete trusted descriptor matching `wRsa`. -/
def wKey : Key := Key.rsa ⟨[1, 2]⟩ RsaScheme.rsassaPssSha256

/-- Concrete trusted descriptor matching `wRsaFail`. -/
def wKeyFail : Key := Key.rsa ⟨[5, 6]⟩ RsaScheme.rsassaPssSha256

/-- Concrete role entry with threshold 1. -/
def wRoleKeys : RoleKeys := ⟨[[1]], 1⟩

/-- Concrete role entry with the same key ids and threshold 99. -/
def wRoleKeys99 : RoleKeys := ⟨[[1]], 99⟩

/-- Concrete root: one trusted key under key id `[1]`, role `root` with
threshold 1. -/
def wRoot : Root :=
  ⟨[([1], wKey)], fun r => match r with
    | RoleType.root => some wRoleKeys
    | _ => none⟩

/-- Concrete root identical to `wRoot` except for the threshold. -/
def wRoot99 : Root :=
  ⟨[([1], wKey)], fun r => match r with
    | RoleType.root => some wRoleKeys99
    | _ => none⟩

/-- Concrete root trusting both `wRsa` (id `[1]`) and `wRsaFail` (id `[2]`). -/
def wRootTwo : Root :=
  ⟨[([1], wKey), ([2], wKeyFail)], fun r => match r with
    | RoleType.root => some ⟨[[1], [2]], 1⟩
    | _ => none⟩

/-- Concrete key source resolving to `wRsa`. -/
def wSrc : KeySource := ⟨Except.ok (KeyPair.rsa wRsa)⟩

/-- Concrete key source resolving to `wRsaAlt` (same public bytes as `wRsa`). -/
def wSrcAlt : KeySource := ⟨Except.ok (KeyPair.rsa wRsaAlt)⟩

/-- Concrete key source resolving to a key unrelated to any root used here. -/
def wSrcUnrelated : KeySource :=
  ⟨Except.ok (KeyPair.rsa
    { privateKey := [3]
      publicKey := [7, 7]
      publicModulusLen := 2
      signRaw := fun _ _ _ => Except.error ()
      sign_length := fun _ _ _ _ h => by simp at h })⟩

/-- Concrete key source that fails to resolve. -/
def wSrcBad : KeySource := ⟨Except.error (Error.sourceRead 4)⟩

/-- Concrete unsigned document with a unit payload. -/
def wDoc : Signed Unit := ⟨(), []⟩

/-- Concrete canonical serialization of the unit payload. -/
def wSer : Unit → Except Unit (List Nat) := fun _ => Except.ok [3]

/-- Logical equality of payloads: two JSON documents are the same logical
payload when they differ only in the insertion order of object members (keys
being distinct within an object). `objCons` rewrites member values in place,
`objPerm` permutes a member list, `trans` composes. -/
inductive LEq : Json → Json → Prop
  | refl (j : Json) : LEq j j
  | arrCons {x y : Json} {xs ys : List Json} :
      LEq x y → LEq (Json.arr xs) (Json.arr ys) →
      LEq (Json.arr (x :: xs)) (Json.arr (y :: ys))
  | objCons {k : String} {v w : Json} {ms ns : List (String × Json)} :
      LEq v w → LEq (Json.obj ms) (Json.obj ns) →
      LEq (Json.obj ((k, v) :: ms)) (Json.obj ((k, w) :: ns))
  | objPerm {ms ns : List (String × Json)} :
      ms.Perm ns → (ms.map Prod.fst).Nodup →
      LEq (Json.obj ms) (Json.obj ns)
  | trans {a b c : Json} : LEq a b → LEq b c → LEq a c

/-- Unfolding of the signer loop on an unauthorized key id. -/
theorem signMetadataGo_cons_unauth {T : Type} (ser : T → Except Unit (List Nat))
    (rk : RoleKeys) (rng : Rng) (keyid : KeyId) (key : KeyPair)
    (rest : List (KeyId × KeyPair)) (doc : Signed T)
    (hk : keyid ∉ rk.keyids) :
    signMetadataGo ser rk rng ((keyid, key) :: rest) doc =
      signMetadataGo ser rk rng rest doc := by
  simp only [signMetadataGo, if_neg hk]

/-- Unfolding of the signer loop when serialization fails. -/
theorem signMetadataGo_cons_serfail {T : Type} (ser : T → Except Unit (List Nat))
    (rk : RoleKeys) (rng : Rng) (keyid : KeyId) (key : KeyPair)
    (rest : List (KeyId × KeyPair)) (doc : Signed T) (u : Unit)
    (hk : keyid ∈ rk.keyids) (hser : ser doc.signed = Except.error u) :
    signMetadataGo ser rk rng ((keyid, key) :: rest) doc =
      (doc, Except.error Error.signJson) := by
  simp only [signMetadataGo, if_pos hk, hser]

/-- Unfolding of the signer loop when the key fails to sign. -/
theorem signMetadataGo_cons_signfail {T : Type} (ser : T → Except Unit (List Nat))
    (rk : RoleKeys) (rng : Rng) (keyid : KeyId) (key : KeyPair)
    (rest : List (KeyId × KeyPair)) (doc : Signed T) (data : List Nat) (e : Error)
    (hk : keyid ∈ rk.keyids) (hser : ser doc.signed = Except.ok data)
    (hsig : key.sign data rng = Except.error e) :
    signMetadataGo ser rk rng ((keyid, key) :: rest) doc =
      (doc, Except.error e) := by
  simp only [signMetadataGo, if_pos hk, hser, hsig]

/-- Unfolding of the signer loop on a successful signature. -/
theorem signMetadataGo_cons_ok {T : Type} (ser : T → Except Unit (List Nat))
    (rk : RoleKeys) (rng : Rng) (keyid : KeyId) (key : KeyPair)
    (rest : List (KeyId × KeyPair)) (doc : Signed T) (data : List Nat)
    (s : List Nat)
    (hk : keyid ∈ rk.keyids) (hser : ser doc.signed = Except.ok data)
    (hsig : key.sign data rng = Except.ok s) :
    signMetadataGo ser rk rng ((keyid, key) :: rest) doc =
      signMetadataGo ser rk rng rest
        ⟨doc.signed, doc.signatures ++ [⟨keyid, s⟩]⟩ := by
  simp only [signMetadataGo, if_pos hk, hser, hsig]

/-- Unfolding of the resolver loop on a failing source. -/
theorem keysForRootGo_cons_err (root : Root) (s : KeySource)
    (rest : List KeySource) (m : List (KeyId × KeyPair)) (e : Error)
    (hs : s.asKeypair = Except.error e) :
    keysForRootGo root (s :: rest) m = Except.error e := by
  simp only [keysForRootGo, hs]

/-- Unfolding of the resolver loop when the resolved pair matches an entry of
the root's key dictionary. -/
theorem keysForRootGo_cons_found (root : Root) (s : KeySource)
    (rest : List KeySource) (m : List (KeyId × KeyPair)) (kp : KeyPair)
    (p : KeyId × Key)
    (hs : s.asKeypair = Except.ok kp)
    (hf : root.keys.find? (fun q => keyPairEqKey kp q.2) = some p) :
    keysForRootGo root (s :: rest) m =
      keysForRootGo root rest (mapInsert m p.1 kp) := by
  simp only [keysForRootGo, hs, hf]

/-- Unfolding of the resolver loop when the resolved pair matches nothing. -/
theorem keysForRootGo_cons_none (root : Root) (s : KeySource)
    (rest : List KeySource) (m : List (KeyId × KeyPair)) (kp : KeyPair)
    (hs : s.asKeypair = Except.ok kp)
    (hf : root.keys.find? (fun q => keyPairEqKey kp q.2) = none) :
    keysForRootGo root (s :: rest) m = keysForRootGo root rest m := by
  simp only [keysForRootGo, hs, hf]

/-- Membership after an insert-or-replace: an entry of the new map is the
inserted pair or an entry of the old map. -/
theorem mapInsert_mem : ∀ (m : List (KeyId × KeyPair)) (k : KeyId) (v : KeyPair)
    (e : KeyId × KeyPair), e ∈ mapInsert m k v → e = (k, v) ∨ e ∈ m := by
  intro m k v
  induction m with
  | nil =>
    intro e he
    simp only [mapInsert, List.mem_singleton] at he
    exact Or.inl he
  | cons p rest ih =>
    intro e he
    obtain ⟨k', v'⟩ := p
    by_cases hk : k' = k
    · simp only [mapInsert, if_pos hk] at he
      rcases List.mem_cons.mp he with h | h
      · exact Or.inl h
      · exact Or.inr (List.mem_cons_of_mem _ h)
    · simp only [mapInsert, if_neg hk] at he
      rcases List.mem_cons.mp he with h | h
      · exact Or.inr (by rw [h]; exact List.mem_cons_self _ _)
      · rcases ih e h with h2 | h2
        · exact Or.inl h2
        · exact Or.inr (List.mem_cons_of_mem _ h2)

/-- Looking up the key just inserted yields the inserted value. -/
theorem mapLookup_insert_self : ∀ (m : List (KeyId × KeyPair)) (k : KeyId)
    (v : KeyPair), mapLookup (mapInsert m k v) k = some v := by
  intro m k v
  induction m with
  | nil => simp [mapInsert, mapLookup]
  | cons p rest ih =>
    obtain ⟨k', v'⟩ := p
    by_cases hk : k' = k
    · simp [mapInsert, if_pos hk, mapLookup]
    · simp [mapInsert, if_neg hk, mapLookup, hk, ih]

/-- The resolver loop over an appended list runs the first part, then feeds
its map into the second part; a failure in the first part is final. -/
theorem keysForRootGo_append (root : Root) : ∀ (l1 l2 : List KeySource)
    (acc : List (KeyId × KeyPair)),
    keysForRootGo root (l1 ++ l2) acc =
      match keysForRootGo root l1 acc with
      | Except.ok m => keysForRootGo root l2 m
      | Except.error e => Except.error e := by
  intro l1
  induction l1 with
  | nil => intro l2 acc; rfl
  | cons s rest ih =>
    intro l2 acc
    cases hs : s.asKeypair with
    | error e =>
      rw [List.cons_append, keysForRootGo_cons_err root s _ acc e hs,
        keysForRootGo_cons_err root s rest acc e hs]
    | ok kp =>
      cases hf : root.keys.find? (fun q => keyPairEqKey kp q.2) with
      | some p =>
        rw [List.cons_append, keysForRootGo_cons_found root s _ acc kp p hs hf,
          keysForRootGo_cons_found root s rest acc kp p hs hf, ih]
      | none =>
        rw [List.cons_append, keysForRootGo_cons_none root s _ acc kp hs hf,
          keysForRootGo_cons_none root s rest acc kp hs hf, ih]

/-- When every source resolves, the resolver loop succeeds. -/
theorem keysForRootGo_ok_of_sources (root : Root) : ∀ (ks : List KeySource),
    (∀ s ∈ ks, ∃ kp, s.asKeypair = Except.ok kp) →
    ∀ acc, ∃ m, keysForRootGo root ks acc = Except.ok m := by
  intro ks
  induction ks with
  | nil => intro _ acc; exact ⟨acc, rfl⟩
  | cons s rest ih =>
    intro hall acc
    obtain ⟨kp, hkp⟩ := hall s (List.mem_cons_self _ _)
    have hrest : ∀ t ∈ rest, ∃ kp, t.asKeypair = Except.ok kp :=
      fun t ht => hall t (List.mem_cons_of_mem _ ht)
    cases hf : root.keys.find? (fun q => keyPairEqKey kp q.2) with
    | some p =>
      obtain ⟨m, hm⟩ := ih hrest (mapInsert acc p.1 kp)
      exact ⟨m, by
        rw [keysForRootGo_cons_found root s rest acc kp p hkp hf]; exact hm⟩
    | none =>
      obtain ⟨m, hm⟩ := ih hrest acc
      exact ⟨m, by
        rw [keysForRootGo_cons_none root s rest acc kp hkp hf]; exact hm⟩

/-- Every entry of a successful resolver run comes from the accumulator or
from a source whose resolved pair matches a dictionary entry of the root,
under that entry's key id. -/
theorem keysForRootGo_entries (root : Root) : ∀ (ks : List KeySource)
    (acc m : List (KeyId × KeyPair)),
    keysForRootGo root ks acc = Except.ok m →
    ∀ e ∈ m, e ∈ acc ∨
      ((∃ s ∈ ks, s.asKeypair = Except.ok e.2) ∧
        ∃ key, (e.1, key) ∈ root.keys ∧ keyPairEqKey e.2 key = true) := by
  intro ks
  induction ks with
  | nil =>
    intro acc m hm e he
    simp only [keysForRootGo] at hm
    injection hm with h
    subst h
    exact Or.inl he
  | cons s rest ih =>
    intro acc m hm e he
    cases hs : s.asKeypair with
    | error e2 =>
      rw [keysForRootGo_cons_err root s rest acc e2 hs] at hm
      exact absurd hm (by simp)
    | ok kp =>
      cases hf : root.keys.find? (fun q => keyPairEqKey kp q.2) with
      | some p =>
        rw [keysForRootGo_cons_found root s rest acc kp p hs hf] at hm
        rcases ih (mapInsert acc p.1 kp) m hm e he with h | h
        · rcases mapInsert_mem acc p.1 kp e h with h2 | h2
          · right
            refine ⟨⟨s, List.mem_cons_self _ _, by rw [h2]; exact hs⟩, p.2, ?_, ?_⟩
            · have hmem := List.mem_of_find?_eq_some hf
              rw [h2]
              simpa using hmem
            · have hpred := List.find?_some hf
              rw [h2]
              simpa using hpred
          · exact Or.inl h2
        · obtain ⟨⟨t, ht, htok⟩, hkey⟩ := h
          exact Or.inr ⟨⟨t, List.mem_cons_of_mem _ ht, htok⟩, hkey⟩
      | none =>
        rw [keysForRootGo_cons_none root s rest acc kp hs hf] at hm
        rcases ih acc m hm e he with h | h
        · exact Or.inl h
        · obtain ⟨⟨t, ht, htok⟩, hkey⟩ := h
          exact Or.inr ⟨⟨t, List.mem_cons_of_mem _ ht, htok⟩, hkey⟩

/-- When every source resolves to a pair matching nothing in the root, the
resolver loop returns its accumulator unchanged. -/
theorem keysForRootGo_unmatched (root : Root) : ∀ (ks : List KeySource),
    (∀ s ∈ ks, ∃ kp, s.asKeypair = Except.ok kp ∧
      ∀ p ∈ root.keys, keyPairEqKey kp p.2 = false) →
    ∀ acc, keysForRootGo root ks acc = Except.ok acc := by
  intro ks
  induction ks with
  | nil => intro _ acc; rfl
  | cons s rest ih =>
    intro hall acc
    obtain ⟨kp, hkp, hno⟩ := hall s (List.mem_cons_self _ _)
    have hf : root.keys.find? (fun q => keyPairEqKey kp q.2) = none := by
      rw [List.find?_eq_none]
      intro q hq
      simp [hno q hq]
    rw [keysForRootGo_cons_none root s rest acc kp hkp hf]
    exact ih (fun t ht => hall t (List.mem_cons_of_mem _ ht)) acc

/-- C3: `KeyPair::parse` fails with `KeyUnrecognized` when the input is not a
valid PEM container or the container's tag is not a supported algorithm, fails
with `KeyRejected` when the tag is `"RSA PRIVATE KEY"` but the contained bytes
are not a structurally valid RSA key, and succeeds with the RSA variant in
exactly the remaining case. -/
theorem parse_error_taxonomy (env : CryptoEnv) (key : List Nat) :
    (env.pemParse key = none →
      KeyPair.parse env key = Except.error Error.keyUnrecognized) ∧
    (∀ pem, env.pemParse key = some pem → pem.tag ≠ "RSA PRIVATE KEY" →
      KeyPair.parse env key = Except.error Error.keyUnrecognized) ∧
    (∀ pem, env.pemParse key = some pem → pem.tag = "RSA PRIVATE KEY" →
      ∀ e, env.rsaFromDer pem.contents = Except.error e →
      KeyPair.parse env key = Except.error Error.keyRejected) ∧
    (∀ pem, env.pemParse key = some pem → pem.tag = "RSA PRIVATE KEY" →
      ∀ kp, env.rsaFromDer pem.contents = Except.ok kp →
      KeyPair.parse env key = Except.ok (KeyPair.rsa kp)) := by
  refine ⟨?_, ?_, ?_, ?_⟩
  · intro h
    simp [KeyPair.parse, h]
  · intro pem hp ht
    simp [KeyPair.parse, hp, ht]
  · intro pem hp ht e he
    simp [KeyPair.parse, hp, ht, he]
  · intro pem hp ht kp hk
    simp [KeyPair.parse, hp, ht, hk]

/-- Witness for C3: each of the four parsing outcomes realized on a concrete
environment and input. -/
theorem parse_error_taxonomy_witness :
    KeyPair.parse envNone [0] = Except.error Error.keyUnrecognized ∧
    KeyPair.parse envBadTag [0] = Except.error Error.keyUnrecognized ∧
    KeyPair.parse envRejected [0] = Except.error Error.keyRejected ∧
    KeyPair.parse envOk [0] = Except.ok (KeyPair.rsa wRsa) :=
  ⟨(parse_error_taxonomy envNone [0]).1 rfl,
   (parse_error_taxonomy envBadTag [0]).2.1 wPemBad rfl (by decide),
   (parse_error_taxonomy envRejected [0]).2.2.1 wPem rfl rfl () rfl,
   (parse_error_taxonomy envOk [0]).2.2.2 wPem rfl rfl wRsa rfl⟩

/-- C7: a successful `KeyPair::sign` returns a signature whose byte length
equals the key's public modulus length, and it fails with the `Sign` error
when the underlying cryptographic signing operation fails. -/
theorem sign_modulus_length (kp : RsaKeyPair) (msg : List Nat) (rng : Rng) :
    (∀ out, KeyPair.sign (KeyPair.rsa kp) msg rng = Except.ok out →
      out.length = kp.publicModulusLen) ∧
    (∀ e, kp.signRaw (List.replicate kp.publicModulusLen 0) msg rng =
        Except.error e →
      KeyPair.sign (KeyPair.rsa kp) msg rng = Except.error Error.sign) := by
  constructor
  · intro out hout
    simp only [KeyPair.sign] at hout
    split at hout
    · rename_i s hs
      injection hout with h2
      subst h2
      have h3 := kp.sign_length _ msg rng s hs
      simpa using h3
    · simp at hout
  · intro e he
    simp only [KeyPair.sign, he]

/-- Witness for C7: the echoing key signs with a signature of the modulus
length, the failing key reports `Sign`. -/
theorem sign_modulus_length_witness :
    KeyPair.sign (KeyPair.rsa wRsa) [7] 0 = Except.ok [0, 0] ∧
    ([0, 0] : List Nat).length = wRsa.publicModulusLen ∧
    KeyPair.sign (KeyPair.rsa wRsaFail) [7] 0 = Except.error Error.sign :=
  ⟨rfl,
   (sign_modulus_length wRsa [7] 0).1 [0, 0] rfl,
   (sign_modulus_length wRsaFail [7] 0).2 () rfl⟩

/-- C8: the comparison of an operational key pair with a trusted descriptor is
true exactly when the algorithm tags match and the public bytes match, and it
never consults private key material (key pairs with equal public bytes compare
identically against every descriptor). -/
theorem keypair_eq_key_iff (p : KeyPair) (k : Key) :
    (keyPairEqKey p k = true ↔ p.alg = k.alg ∧ p.publicBytes = k.publicBytes) ∧
    (∀ kp1 kp2 : RsaKeyPair, kp1.publicKey = kp2.publicKey →
      keyPairEqKey (KeyPair.rsa kp1) k = keyPairEqKey (KeyPair.rsa kp2) k) := by
  constructor
  · cases p with
    | rsa kp =>
      cases k with
      | rsa keyval scheme =>
        simp [keyPairEqKey, KeyPair.alg, Key.alg, KeyPair.publicBytes,
          Key.publicBytes]
      | ed25519 b =>
        simp [keyPairEqKey, KeyPair.alg, Key.alg, KeyPair.publicBytes,
          Key.publicBytes]
  · intro kp1 kp2 h
    cases k with
    | rsa keyval scheme => simp [keyPairEqKey, h]
    | ed25519 b => simp [keyPairEqKey]

/-- Witness for C8: `wRsa` matches its descriptor, and `wRsaAlt` (same public
bytes, different private material) compares identically. -/
theorem keypair_eq_key_iff_witness :
    keyPairEqKey (KeyPair.rsa wRsa) wKey = true ∧
    keyPairEqKey (KeyPair.rsa wRsa) wKey =
      keyPairEqKey (KeyPair.rsa wRsaAlt) wKey :=
  ⟨(keypair_eq_key_iff (KeyPair.rsa wRsa) wKey).1.mpr ⟨rfl, rfl⟩,
   (keypair_eq_key_iff (KeyPair.rsa wRsa) wKey).2 wRsa wRsaAlt rfl⟩

/-- The signer loop depends on the role entry only through its key ids, never
through the threshold. -/
theorem signMetadataGo_keyids_eq {T : Type} (ser : T → Except Unit (List Nat))
    (rk1 rk2 : RoleKeys) (rng : Rng) (h : rk1.keyids = rk2.keyids) :
    ∀ (l : List (KeyId × KeyPair)) (doc : Signed T),
      signMetadataGo ser rk1 rng l doc = signMetadataGo ser rk2 rng l doc := by
  intro l
  induction l with
  | nil => intro doc; rfl
  | cons p rest ih =>
    intro doc
    obtain ⟨keyid, key⟩ := p
    by_cases hk : keyid ∈ rk1.keyids
    · have hk2 : keyid ∈ rk2.keyids := h ▸ hk
      cases hs : ser doc.signed with
      | error u =>
        rw [signMetadataGo_cons_serfail ser rk1 rng keyid key rest doc u hk hs,
          signMetadataGo_cons_serfail ser rk2 rng keyid key rest doc u hk2 hs]
      | ok data =>
        cases hg : key.sign data rng with
        | error e =>
          rw [signMetadataGo_cons_signfail ser rk1 rng keyid key rest doc data e
              hk hs hg,
            signMetadataGo_cons_signfail ser rk2 rng keyid key rest doc data e
              hk2 hs hg]
        | ok s =>
          rw [signMetadataGo_cons_ok ser rk1 rng keyid key rest doc data s hk hs hg,
            signMetadataGo_cons_ok ser rk2 rng keyid key rest doc data s hk2 hs hg]
          exact ih _
    · have hk2 : keyid ∉ rk2.keyids := h ▸ hk
      rw [signMetadataGo_cons_unauth ser rk1 rng keyid key rest doc hk,
        signMetadataGo_cons_unauth ser rk2 rng keyid key rest doc hk2]
      exact ih doc

/-- C6: `sign_metadata` does not enforce a role's threshold: for two roots
identical except for the thresholds in their role tables, and the same
resolved key map, document and randomness source, it produces identical
results and identical signature sequences. -/
theorem sign_metadata_threshold_independent {T : Type} (tType : RoleType)
    (ser : T → Except Unit (List Nat)) (root1 root2 : Root)
    (keys : List (KeyId × KeyPair)) (role : Signed T) (rng : Rng)
    (hkeys : root1.keys = root2.keys)
    (hroles : ∀ r, (root1.roles r).map RoleKeys.keyids =
      (root2.roles r).map RoleKeys.keyids) :
    sign_metadata tType ser root1 keys role rng =
      sign_metadata tType ser root2 keys role rng := by
  unfold sign_metadata
  have h := hroles tType
  cases h1 : root1.roles tType with
  | none =>
    cases h2 : root2.roles tType with
    | none => rfl
    | some rk2 =>
      rw [h1, h2] at h
      exact absurd h (by simp)
  | some rk1 =>
    cases h2 : root2.roles tType with
    | none =>
      rw [h1, h2] at h
      exact absurd h (by simp)
    | some rk2 =>
      rw [h1, h2] at h
      have h3 : rk1.keyids = rk2.keyids := by simpa using h
      exact signMetadataGo_keyids_eq ser rk1 rk2 rng h3 keys role

/-- Witness for C6: thresholds 1 and 99 yield the same signing result. -/
theorem sign_metadata_threshold_independent_witness :
    sign_metadata RoleType.root wSer wRoot [([1], KeyPair.rsa wRsa)] wDoc 0 =
      sign_metadata RoleType.root wSer wRoot99 [([1], KeyPair.rsa wRsa)] wDoc 0 :=
  sign_metadata_threshold_independent RoleType.root wSer wRoot wRoot99
    [([1], KeyPair.rsa wRsa)] wDoc 0 rfl (fun r => by cases r <;> rfl)

/-- C1: a successful `keys_for_root` returns entries only for key sources
whose parsed pair's public key equals some descriptor in the root's key
dictionary, under that entry's key id; sources whose pair matches nothing are
silently excluded, so feeding only keys unrelated to the root yields the
empty map and the call still succeeds. -/
theorem keys_for_root_authorized_only (keys : List KeySource) (root : Root) :
    (∀ m, keys_for_root keys root = Except.ok m →
      ∀ e ∈ m, (∃ s ∈ keys, s.asKeypair = Except.ok e.2) ∧
        ∃ key, (e.1, key) ∈ root.keys ∧ keyPairEqKey e.2 key = true) ∧
    ((∀ s ∈ keys, ∃ kp, s.asKeypair = Except.ok kp ∧
        ∀ p ∈ root.keys, keyPairEqKey kp p.2 = false) →
      keys_for_root keys root = Except.ok []) := by
  constructor
  · intro m hm e he
    rcases keysForRootGo_entries root keys [] m hm e he with h | h
    · simp at h
    · exact h
  · intro h
    exact keysForRootGo_unmatched root keys h []

/-- Witness for C1: a single source unrelated to the root resolves to the
empty map, successfully. -/
theorem keys_for_root_authorized_only_witness :
    keys_for_root [wSrcUnrelated] wRoot = Except.ok [] :=
  (keys_for_root_authorized_only [wSrcUnrelated] wRoot).2 (by
    intro s hs
    simp only [List.mem_singleton] at hs
    subst hs
    refine ⟨_, rfl, ?_⟩
    intro p hp
    simp only [wRoot, List.mem_singleton] at hp
    subst hp
    rfl)

/-- C4: a key source that fails to resolve aborts the entire resolution with
that source's error; no partial map is returned. -/
theorem keys_for_root_aborts_on_bad_source (ks1 ks2 : List KeySource)
    (s : KeySource) (root : Root) (e : Error)
    (h1 : ∀ t ∈ ks1, ∃ kp, t.asKeypair = Except.ok kp)
    (h2 : s.asKeypair = Except.error e) :
    keys_for_root (ks1 ++ s :: ks2) root = Except.error e := by
  unfold keys_for_root
  rw [keysForRootGo_append root ks1 (s :: ks2) []]
  obtain ⟨m, hm⟩ := keysForRootGo_ok_of_sources root ks1 h1 []
  rw [hm]
  exact keysForRootGo_cons_err root s ks2 m e h2

/-- Witness for C4: a good source followed by a failing one yields exactly the
failing source's error. -/
theorem keys_for_root_aborts_on_bad_source_witness :
    keys_for_root [wSrc, wSrcBad] wRoot = Except.error (Error.sourceRead 4) :=
  keys_for_root_aborts_on_bad_source [wSrc] [] wSrcBad wRoot
    (Error.sourceRead 4)
    (by
      intro t ht
      simp only [List.mem_singleton] at ht
      subst ht
      exact ⟨_, rfl⟩)
    rfl

/-- C5: when two distinct key sources resolve to pairs matching the same key
id of the root, the later source in iteration order wins (last-write
overwrite), and the resolution still succeeds. -/
theorem keys_for_root_last_write_wins (ks1 ks2 : List KeySource)
    (s1 s2 : KeySource) (root : Root) (kp1 kp2 : KeyPair) (kid : KeyId)
    (key1 key2 : Key)
    (hall : ∀ t ∈ ks1 ++ ks2, ∃ kp, t.asKeypair = Except.ok kp)
    (h1 : s1.asKeypair = Except.ok kp1)
    (h2 : s2.asKeypair = Except.ok kp2)
    (f1 : root.keys.find? (fun q => keyPairEqKey kp1 q.2) = some (kid, key1))
    (f2 : root.keys.find? (fun q => keyPairEqKey kp2 q.2) = some (kid, key2)) :
    Except.map (fun m => mapLookup m kid)
        (keys_for_root (ks1 ++ s1 :: (ks2 ++ [s2])) root) =
      Except.ok (some kp2) := by
  have hall2 : ∀ t ∈ ks1 ++ s1 :: ks2, ∃ kp, t.asKeypair = Except.ok kp := by
    intro t ht
    rcases List.mem_append.mp ht with h | h
    · exact hall t (List.mem_append.mpr (Or.inl h))
    · rcases List.mem_cons.mp h with h | h
      · exact ⟨kp1, h ▸ h1⟩
      · exact hall t (List.mem_append.mpr (Or.inr h))
  obtain ⟨m0, hm0⟩ := keysForRootGo_ok_of_sources root (ks1 ++ s1 :: ks2) hall2 []
  have hsplit : ks1 ++ s1 :: (ks2 ++ [s2]) = (ks1 ++ s1 :: ks2) ++ [s2] := by
    simp
  have hrun : keys_for_root (ks1 ++ s1 :: (ks2 ++ [s2])) root =
      Except.ok (mapInsert m0 kid kp2) := by
    rw [hsplit]
    unfold keys_for_root
    rw [keysForRootGo_append root (ks1 ++ s1 :: ks2) [s2] [], hm0]
    show keysForRootGo root [s2] m0 = _
    rw [keysForRootGo_cons_found root s2 [] m0 kp2 (kid, key2) h2 f2]
    rfl
  rw [hrun]
  simp [Except.map, mapLookup_insert_self]

/-- Witness for C5: `wSrc` and `wSrcAlt` both match key id `[1]`; the later
source's pair is the one found in the result map. -/
theorem keys_for_root_last_write_wins_witness :
    Except.map (fun m => mapLookup m [1])
        (keys_for_root [wSrc, wSrcAlt] wRoot) =
      Except.ok (some (KeyPair.rsa wRsaAlt)) :=
  keys_for_root_last_write_wins [] [] wSrc wSrcAlt wRoot (KeyPair.rsa wRsa)
    (KeyPair.rsa wRsaAlt) [1] wKey wKey
    (by intro t ht; simp at ht) rfl rfl rfl rfl

/-- Unfolding of `appendedSigs` on an authorized, successfully signing key. -/
theorem appendedSigs_cons_auth (rk : RoleKeys) (keyid : KeyId) (key : KeyPair)
    (rest : List (KeyId × KeyPair)) (data : List Nat) (rng : Rng) (s : List Nat)
    (hk : keyid ∈ rk.keyids) (hs : key.sign data rng = Except.ok s) :
    appendedSigs rk ((keyid, key) :: rest) data rng =
      ⟨keyid, s⟩ :: appendedSigs rk rest data rng := by
  simp [appendedSigs, List.filterMap_cons, hk, hs]

/-- Unfolding of `appendedSigs` on an unauthorized key. -/
theorem appendedSigs_cons_unauth (rk : RoleKeys) (keyid : KeyId) (key : KeyPair)
    (rest : List (KeyId × KeyPair)) (data : List Nat) (rng : Rng)
    (hk : keyid ∉ rk.keyids) :
    appendedSigs rk ((keyid, key) :: rest) data rng =
      appendedSigs rk rest data rng := by
  simp [appendedSigs, List.filterMap_cons, hk]

/-- When serialization succeeds and every authorized key signs, the signer
loop succeeds and appends exactly `appendedSigs`. -/
theorem signMetadataGo_ok_eq {T : Type} (ser : T → Except Unit (List Nat))
    (rk : RoleKeys) (rng : Rng) (data : List Nat) :
    ∀ (keys : List (KeyId × KeyPair)) (doc : Signed T),
      ser doc.signed = Except.ok data →
      (∀ p ∈ keys, p.1 ∈ rk.keyids → ∃ s, p.2.sign data rng = Except.ok s) →
      signMetadataGo ser rk rng keys doc =
        (⟨doc.signed, doc.signatures ++ appendedSigs rk keys data rng⟩,
          Except.ok ()) := by
  intro keys
  induction keys with
  | nil =>
    intro doc hser hsign
    simp [signMetadataGo, appendedSigs]
  | cons p rest ih =>
    intro doc hser hsign
    obtain ⟨keyid, key⟩ := p
    by_cases hk : keyid ∈ rk.keyids
    · obtain ⟨s, hs⟩ := hsign (keyid, key) (List.mem_cons_self _ _) hk
      rw [signMetadataGo_cons_ok ser rk rng keyid key rest doc data s hk hser hs,
        ih ⟨doc.signed, doc.signatures ++ [Signature.mk keyid s]⟩ hser
          (fun q hq hq2 => hsign q (List.mem_cons_of_mem _ hq) hq2),
        appendedSigs_cons_auth rk keyid key rest data rng s hk hs]
      simp
    · rw [signMetadataGo_cons_unauth ser rk rng keyid key rest doc hk,
        ih doc hser (fun q hq hq2 => hsign q (List.mem_cons_of_mem _ hq) hq2),
        appendedSigs_cons_unauth rk keyid key rest data rng hk]

/-- The signer loop over an appended list runs the first part and, on
success, continues from its mutated document; a failure is final. -/
theorem signMetadataGo_append {T : Type} (ser : T → Except Unit (List Nat))
    (rk : RoleKeys) (rng : Rng) : ∀ (l1 l2 : List (KeyId × KeyPair))
    (doc : Signed T),
    signMetadataGo ser rk rng (l1 ++ l2) doc =
      match signMetadataGo ser rk rng l1 doc with
      | (d, Except.ok _) => signMetadataGo ser rk rng l2 d
      | (d, Except.error e) => (d, Except.error e) := by
  intro l1
  induction l1 with
  | nil => intro l2 doc; rfl
  | cons p rest ih =>
    intro l2 doc
    obtain ⟨keyid, key⟩ := p
    by_cases hk : keyid ∈ rk.keyids
    · cases hser : ser doc.signed with
      | error u =>
        rw [List.cons_append,
          signMetadataGo_cons_serfail ser rk rng keyid key _ doc u hk hser,
          signMetadataGo_cons_serfail ser rk rng keyid key rest doc u hk hser]
      | ok data =>
        cases hsig : key.sign data rng with
        | error e =>
          rw [List.cons_append,
            signMetadataGo_cons_signfail ser rk rng keyid key _ doc data e
              hk hser hsig,
            signMetadataGo_cons_signfail ser rk rng keyid key rest doc data e
              hk hser hsig]
        | ok s =>
          rw [List.cons_append,
            signMetadataGo_cons_ok ser rk rng keyid key _ doc data s hk hser hsig,
            signMetadataGo_cons_ok ser rk rng keyid key rest doc data s
              hk hser hsig, ih]
    · rw [List.cons_append,
        signMetadataGo_cons_unauth ser rk rng keyid key _ doc hk,
        signMetadataGo_cons_unauth ser rk rng keyid key rest doc hk, ih]

/-- The signer loop skips every unauthorized key, leaving the document
untouched. -/
theorem signMetadataGo_skip_all {T : Type} (ser : T → Except Unit (List Nat))
    (rk : RoleKeys) (rng : Rng) : ∀ (l : List (KeyId × KeyPair)) (doc : Signed T),
    (∀ p ∈ l, p.1 ∉ rk.keyids) →
    signMetadataGo ser rk rng l doc = (doc, Except.ok ()) := by
  intro l
  induction l with
  | nil => intro doc _; rfl
  | cons p rest ih =>
    intro doc hall
    obtain ⟨keyid, key⟩ := p
    rw [signMetadataGo_cons_unauth ser rk rng keyid key rest doc
      (hall (keyid, key) (List.mem_cons_self _ _))]
    exact ih doc (fun q hq => hall q (List.mem_cons_of_mem _ hq))

/-- The key ids of the appended signatures are exactly the authorized key ids
of the map, in map order. -/
theorem appendedSigs_keyids (rk : RoleKeys) (data : List Nat) (rng : Rng) :
    ∀ (keys : List (KeyId × KeyPair)),
    (∀ p ∈ keys, p.1 ∈ rk.keyids → ∃ s, p.2.sign data rng = Except.ok s) →
    (appendedSigs rk keys data rng).map Signature.keyid =
      (keys.map Prod.fst).filter (fun kid => decide (kid ∈ rk.keyids)) := by
  intro keys
  induction keys with
  | nil => intro _; rfl
  | cons p rest ih =>
    intro hsign
    obtain ⟨keyid, key⟩ := p
    have ih2 := ih (fun q hq h2 => hsign q (List.mem_cons_of_mem _ hq) h2)
    by_cases hk : keyid ∈ rk.keyids
    · obtain ⟨s, hs⟩ := hsign (keyid, key) (List.mem_cons_self _ _) hk
      rw [appendedSigs_cons_auth rk keyid key rest data rng s hk hs,
        List.map_cons, List.map_cons,
        List.filter_cons_of_pos (by simpa using hk), ih2]
    · rw [appendedSigs_cons_unauth rk keyid key rest data rng hk,
        List.map_cons, List.filter_cons_of_neg (by simpa using hk), ih2]

/-- Counting in a list without duplicates: one occurrence per member. -/
theorem count_eq_one_of_nodup_mem : ∀ (l : List KeyId), l.Nodup →
    ∀ kid ∈ l, l.count kid = 1 := by
  intro l
  induction l with
  | nil => simp
  | cons a rest ih =>
    intro hnd kid hmem
    rcases List.mem_cons.mp hmem with rfl | h
    · rw [List.count_cons_self,
        List.count_eq_zero_of_not_mem (List.nodup_cons.mp hnd).1]
    · have hne : kid ≠ a := fun he => (List.nodup_cons.mp hnd).1 (he ▸ h)
      rw [List.count_cons_of_ne hne]
      exact ih (List.nodup_cons.mp hnd).2 kid h

/-- Counting occurrences in a filtered list with distinct elements. -/
theorem count_filter_nodup (l : List KeyId) (hl : l.Nodup) (auth : List KeyId)
    (kid : KeyId) :
    (l.filter (fun k => decide (k ∈ auth))).count kid =
      if kid ∈ auth ∧ kid ∈ l then 1 else 0 := by
  by_cases h1 : kid ∈ auth
  · by_cases h2 : kid ∈ l
    · rw [if_pos ⟨h1, h2⟩]
      exact count_eq_one_of_nodup_mem _ (hl.filter _) kid
        (List.mem_filter.mpr ⟨h2, by simp [h1]⟩)
    · rw [if_neg (fun h => h2 h.2)]
      apply List.count_eq_zero_of_not_mem
      intro hmem
      exact h2 (List.mem_of_mem_filter hmem)
  · rw [if_neg (fun h => h1 h.1)]
    apply List.count_eq_zero_of_not_mem
    intro hmem
    exact h1 (of_decide_eq_true (List.mem_filter.mp hmem).2)

/-- C2: when the root declares the document's role, `sign_metadata` appends
exactly one signature per key id that is both authorized for the role and
present in the resolved key map (zero signatures when that intersection is
empty), and returns success. -/
theorem sign_metadata_appends_per_authorized_key {T : Type} (tType : RoleType)
    (ser : T → Except Unit (List Nat)) (root : Root) (rk : RoleKeys)
    (keys : List (KeyId × KeyPair)) (doc : Signed T) (rng : Rng)
    (data : List Nat)
    (hrole : root.roles tType = some rk)
    (hnodup : (keys.map Prod.fst).Nodup)
    (hser : ser doc.signed = Except.ok data)
    (hsign : ∀ p ∈ keys, p.1 ∈ rk.keyids → ∃ s, p.2.sign data rng = Except.ok s) :
    sign_metadata tType ser root keys doc rng =
      (⟨doc.signed, doc.signatures ++ appendedSigs rk keys data rng⟩,
        Except.ok ()) ∧
    (appendedSigs rk keys data rng).map Signature.keyid =
      (keys.map Prod.fst).filter (fun kid => decide (kid ∈ rk.keyids)) ∧
    ∀ kid, ((appendedSigs rk keys data rng).map Signature.keyid).count kid =
      if kid ∈ rk.keyids ∧ kid ∈ keys.map Prod.fst then 1 else 0 := by
  refine ⟨?_, appendedSigs_keyids rk data rng keys hsign, ?_⟩
  · unfold sign_metadata
    rw [hrole]
    exact signMetadataGo_ok_eq ser rk rng data keys doc hser hsign
  · intro kid
    rw [appendedSigs_keyids rk data rng keys hsign]
    exact count_filter_nodup (keys.map Prod.fst) hnodup rk.keyids kid

/-- Witness for C2: one authorized key appends exactly one signature and the
call succeeds; the count of key id `[1]` among appended signatures is given
by the intersection test. -/
theorem sign_metadata_appends_per_authorized_key_witness :
    sign_metadata RoleType.root wSer wRoot [([1], KeyPair.rsa wRsa)] wDoc 0 =
      (⟨wDoc.signed, wDoc.signatures ++
        appendedSigs wRoleKeys [([1], KeyPair.rsa wRsa)] [3] 0⟩,
        Except.ok ()) ∧
    ((appendedSigs wRoleKeys [([1], KeyPair.rsa wRsa)] [3] 0).map
        Signature.keyid).count [1] =
      if ([1] : KeyId) ∈ wRoleKeys.keyids ∧
          ([1] : KeyId) ∈ [([1], KeyPair.rsa wRsa)].map Prod.fst
        then 1 else 0 := by
  have h := sign_metadata_appends_per_authorized_key RoleType.root wSer wRoot
    wRoleKeys [([1], KeyPair.rsa wRsa)] wDoc 0 [3] rfl (by decide) rfl
    (fun p hp hk => ⟨[0, 0], by
      rcases List.mem_singleton.mp hp with rfl
      rfl⟩)
  exact ⟨h.1, h.2.2 [1]⟩

/-- C10: when serialization or signing fails for one authorized key during a
`sign_metadata` pass, the call returns that error immediately, the signatures
appended for keys processed earlier in the same call remain attached, and the
keys after the failing one are never processed (the result does not depend on
them). -/
theorem sign_metadata_partial_on_failure {T : Type} (tType : RoleType)
    (ser : T → Except Unit (List Nat)) (root : Root) (rk : RoleKeys)
    (ks1 ks2 : List (KeyId × KeyPair)) (kid : KeyId) (key : KeyPair)
    (doc : Signed T) (rng : Rng)
    (hrole : root.roles tType = some rk)
    (hkid : kid ∈ rk.keyids) :
    (∀ data e, ser doc.signed = Except.ok data →
      (∀ p ∈ ks1, p.1 ∈ rk.keyids → ∃ s, p.2.sign data rng = Except.ok s) →
      key.sign data rng = Except.error e →
      sign_metadata tType ser root (ks1 ++ (kid, key) :: ks2) doc rng =
        (⟨doc.signed, doc.signatures ++ appendedSigs rk ks1 data rng⟩,
          Except.error e)) ∧
    (∀ u, ser doc.signed = Except.error u →
      (∀ p ∈ ks1, p.1 ∉ rk.keyids) →
      sign_metadata tType ser root (ks1 ++ (kid, key) :: ks2) doc rng =
        (doc, Except.error Error.signJson)) := by
  constructor
  · intro data e hser hsign1 hfail
    unfold sign_metadata
    rw [hrole]
    show signMetadataGo ser rk rng (ks1 ++ (kid, key) :: ks2) doc = _
    rw [signMetadataGo_append ser rk rng ks1 ((kid, key) :: ks2) doc,
      signMetadataGo_ok_eq ser rk rng data ks1 doc hser hsign1]
    show signMetadataGo ser rk rng ((kid, key) :: ks2)
      ⟨doc.signed, doc.signatures ++ appendedSigs rk ks1 data rng⟩ = _
    rw [signMetadataGo_cons_signfail ser rk rng kid key ks2
      ⟨doc.signed, doc.signatures ++ appendedSigs rk ks1 data rng⟩ data e hkid
      hser hfail]
  · intro u hser hnone
    unfold sign_metadata
    rw [hrole]
    show signMetadataGo ser rk rng (ks1 ++ (kid, key) :: ks2) doc = _
    rw [signMetadataGo_append ser rk rng ks1 ((kid, key) :: ks2) doc,
      signMetadataGo_skip_all ser rk rng ks1 doc hnone]
    show signMetadataGo ser rk rng ((kid, key) :: ks2) doc = _
    rw [signMetadataGo_cons_serfail ser rk rng kid key ks2 doc u hkid hser]

/-- Witness for C10: the first key signs, the second fails; the error is
returned while the first signature stays attached. -/
theorem sign_metadata_partial_on_failure_witness :
    sign_metadata RoleType.root wSer wRootTwo
      [([1], KeyPair.rsa wRsa), ([2], KeyPair.rsa wRsaFail)] wDoc 0 =
      (⟨wDoc.signed, wDoc.signatures ++
        appendedSigs ⟨[[1], [2]], 1⟩ [([1], KeyPair.rsa wRsa)] [3] 0⟩,
        Except.error Error.sign) :=
  (sign_metadata_partial_on_failure RoleType.root wSer wRootTwo
    ⟨[[1], [2]], 1⟩ [([1], KeyPair.rsa wRsa)] [] [2] (KeyPair.rsa wRsaFail)
    wDoc 0 rfl (by decide)).1 [3] Error.sign rfl
    (fun p hp hk => ⟨[0, 0], by
      rcases List.mem_singleton.mp hp with rfl
      rfl⟩)
    rfl

/-- serialization of members is a pointwise map over the member list. -/
theorem serMembers_eq_map : ∀ (ms : List (String × Json)),
    serMembers ms = ms.map (fun p => (p.1, serJson p.2)) := by
  intro ms
  induction ms with
  | nil => rfl
  | cons p rest ih =>
    obtain ⟨k, v⟩ := p
    simp only [serMembers, List.map_cons, ih]

/-- serialization of members preserves the key sequence. -/
theorem serMembers_keys (ms : List (String × Json)) :
    (serMembers ms).map Prod.fst = ms.map Prod.fst := by
  simp [serMembers_eq_map, List.map_map, Function.comp]

/-- Unfolding of `sortMembers` on a cons. -/
theorem sortMembers_cons (x : String × String) (l : List (String × String)) :
    sortMembers (x :: l) = List.orderedInsert memberKeyLe x (sortMembers l) :=
  rfl

/-- Sortedness by keys plus key distinctness gives strict sortedness. -/
theorem sorted_lt_of_le_nodup {l : List (String × String)}
    (hs : List.Sorted memberKeyLe l) (hn : (l.map Prod.fst).Nodup) :
    List.Sorted memberKeyLt l := by
  have hne : l.Pairwise (fun a b => a.1 ≠ b.1) := List.pairwise_map.mp hn
  exact (hs.and hne).imp fun h => lt_of_le_of_ne h.1 h.2

/-- Sorting serialized members is invariant under permutation when the keys
are distinct. -/
theorem sortMembers_eq_of_perm_nodup {l1 l2 : List (String × String)}
    (h : l1.Perm l2) (hn : (l1.map Prod.fst).Nodup) :
    sortMembers l1 = sortMembers l2 := by
  have hp : (sortMembers l1).Perm (sortMembers l2) :=
    (List.perm_insertionSort memberKeyLe l1).trans
      (h.trans (List.perm_insertionSort memberKeyLe l2).symm)
  have hs1 : List.Sorted memberKeyLe (sortMembers l1) :=
    List.sorted_insertionSort memberKeyLe l1
  have hs2 : List.Sorted memberKeyLe (sortMembers l2) :=
    List.sorted_insertionSort memberKeyLe l2
  have hn1 : ((sortMembers l1).map Prod.fst).Nodup :=
    (((List.perm_insertionSort memberKeyLe l1).map Prod.fst).symm).nodup hn
  have hn2 : ((sortMembers l2).map Prod.fst).Nodup :=
    (((List.perm_insertionSort memberKeyLe l2).map Prod.fst).symm).nodup
      ((h.map Prod.fst).nodup hn)
  exact List.eq_of_perm_of_sorted hp (sorted_lt_of_le_nodup hs1 hn1)
    (sorted_lt_of_le_nodup hs2 hn2)

/-- Logical equality relates an array only to an array. -/
theorem LEq_arr_shape : ∀ {a b : Json}, LEq a b →
    ∀ xs, a = Json.arr xs → ∃ ys, b = Json.arr ys := by
  intro a b h
  induction h with
  | refl j => exact fun xs hx => ⟨xs, hx⟩
  | arrCons h1 h2 ih1 ih2 =>
    rename_i x y xs' ys'
    exact fun xs hx => ⟨y :: ys', rfl⟩
  | objCons h1 h2 ih1 ih2 => exact fun xs hx => Json.noConfusion hx
  | objPerm hp hn => exact fun xs hx => Json.noConfusion hx
  | trans h1 h2 ih1 ih2 =>
    intro xs hx
    obtain ⟨zs, hz⟩ := ih1 xs hx
    exact ih2 zs hz

/-- Logical equality relates an object only to an object. -/
theorem LEq_obj_shape : ∀ {a b : Json}, LEq a b →
    ∀ ms, a = Json.obj ms → ∃ ns, b = Json.obj ns := by
  intro a b h
  induction h with
  | refl j => exact fun ms hm => ⟨ms, hm⟩
  | arrCons h1 h2 ih1 ih2 => exact fun ms hm => Json.noConfusion hm
  | objCons h1 h2 ih1 ih2 =>
    rename_i k v w ms' ns'
    exact fun ms hm => ⟨(k, w) :: ns', rfl⟩
  | objPerm hp hn =>
    rename_i ms' ns'
    exact fun ms hm => ⟨ns', rfl⟩
  | trans h1 h2 ih1 ih2 =>
    intro ms hm
    obtain ⟨ks, hk⟩ := ih1 ms hm
    exact ih2 ks hk

/-- Logically equal payloads serialize to the same bytes, with matching
statements for array elements and sorted object members. -/
theorem LEq_ser : ∀ {a b : Json}, LEq a b →
    serJson a = serJson b ∧
    (∀ xs ys, a = Json.arr xs → b = Json.arr ys → serList xs = serList ys) ∧
    (∀ ms ns, a = Json.obj ms → b = Json.obj ns →
      sortMembers (serMembers ms) = sortMembers (serMembers ns)) := by
  intro a b h
  induction h with
  | refl j =>
    refine ⟨rfl, ?_, ?_⟩
    · intro xs ys h1 h2
      rw [h1] at h2
      injection h2 with h3
      rw [h3]
    · intro ms ns h1 h2
      rw [h1] at h2
      injection h2 with h3
      rw [h3]
  | arrCons h1 h2 ih1 ih2 =>
    rename_i x y xs' ys'
    have hlist : serList (x :: xs') = serList (y :: ys') := by
      simp only [serList, ih1.1, ih2.2.1 xs' ys' rfl rfl]
    refine ⟨?_, ?_, ?_⟩
    · simp only [serJson, hlist]
    · intro xs ys hx hy
      injection hx with e1
      injection hy with e2
      rw [← e1, ← e2]
      exact hlist
    · intro ms ns hm hn
      exact Json.noConfusion hm
  | objCons h1 h2 ih1 ih2 =>
    rename_i k v w ms' ns'
    have hmemb : sortMembers (serMembers ((k, v) :: ms')) =
        sortMembers (serMembers ((k, w) :: ns')) := by
      simp only [serMembers]
      rw [sortMembers_cons, sortMembers_cons, ih1.1,
        ih2.2.2 ms' ns' rfl rfl]
    refine ⟨?_, ?_, ?_⟩
    · simp only [serJson, hmemb]
    · intro xs ys hx hy
      exact Json.noConfusion hx
    · intro ms ns hm hn
      injection hm with e1
      injection hn with e2
      rw [← e1, ← e2]
      exact hmemb
  | objPerm hp hn =>
    rename_i ms' ns'
    have hpm : (serMembers ms').Perm (serMembers ns') := by
      rw [serMembers_eq_map, serMembers_eq_map]
      exact hp.map _
    have hnd : ((serMembers ms').map Prod.fst).Nodup := by
      rw [serMembers_keys]
      exact hn
    have hmemb : sortMembers (serMembers ms') = sortMembers (serMembers ns') :=
      sortMembers_eq_of_perm_nodup hpm hnd
    refine ⟨?_, ?_, ?_⟩
    · simp only [serJson, hmemb]
    · intro xs ys hx hy
      exact Json.noConfusion hx
    · intro ms ns hm hn2
      injection hm with e1
      injection hn2 with e2
      rw [← e1, ← e2]
      exact hmemb
  | trans h1 h2 ih1 ih2 =>
    refine ⟨ih1.1.trans ih2.1, ?_, ?_⟩
    · intro xs ys hx hy
      obtain ⟨zs, hz⟩ := LEq_arr_shape h1 xs hx
      exact (ih1.2.1 xs zs hx hz).trans (ih2.2.1 zs ys hz hy)
    · intro ms ns hm hn
      obtain ⟨ks, hk⟩ := LEq_obj_shape h1 ms hm
      exact (ih1.2.2 ms ks hm hk).trans (ih2.2.2 ks ns hk hn)

/-- C9: the canonical serialization used immediately before signing is
insertion-order independent and deterministic: two documents that are the
same logical payload, with object members inserted in different orders,
serialize to byte-identical output; object members are emitted sorted by
key. -/
theorem canonical_serialization_order_independent :
    (∀ j1 j2, LEq j1 j2 → serJson j1 = serJson j2) ∧
    (∀ ms, List.Sorted memberKeyLe (sortMembers (serMembers ms))) :=
  ⟨fun _ _ h => (LEq_ser h).1,
   fun ms => List.sorted_insertionSort memberKeyLe (serMembers ms)⟩

/-- Witness for C9: a two-member object serialized with its keys inserted in
both orders produces identical output. -/
theorem canonical_serialization_order_independent_witness :
    serJson (Json.obj [("b", Json.num 1), ("a", Json.null)]) =
      serJson (Json.obj [("a", Json.null), ("b", Json.num 1)]) :=
  canonical_serialization_order_independent.1 _ _
    (LEq.objPerm (List.Perm.swap ("a", Json.null) ("b", Json.num 1) [])
      (by decide))

end Tuftool
